import Mathlib

/-!
Verification of the LCCDE (Leader-Class & Confidence Decision Ensemble)
core of the idssystem repository, together with two frontend functions
(experiment-creation parameter handling and confusion-matrix cell
coloring).  The backend ML engine (`backend/ml_engine/lccde_algorithm.py`)
is referenced by the repository's documentation but its file is not part
of the source tree available here, so the DecisionEngine, LeaderAssigner,
PerClassScorer and EvaluationReporter components are modelled from the
specification; the frontend components are embedded from their JavaScript
source.
-/

/-- The three base learners A, B, C of the ensemble. -/
inductive Learner
  | A
  | B
  | C
deriving DecidableEq

/-- One sample's raw outputs: each learner's predicted label and the
confidence (probability) it assigned to its own predicted label. -/
structure Votes where
  pA : Nat
  pB : Nat
  pC : Nat
  cA : ℚ
  cB : ℚ
  cC : ℚ

/-- The label a given learner predicted for this sample. -/
def Votes.lab (v : Votes) : Learner → Nat
  | .A => v.pA
  | .B => v.pB
  | .C => v.pC

/-- The confidence a given learner assigned to its own predicted label. -/
def Votes.conf (v : Votes) : Learner → ℚ
  | .A => v.cA
  | .B => v.cB
  | .C => v.cC

/-- First maximizer of `conf` in a list of learners: the head is kept
unless an element further right has strictly larger confidence. -/
def pickMax (conf : Learner → ℚ) : List Learner → Option Learner
  | [] => none
  | g :: rest =>
    match pickMax conf rest with
    | none => some g
    | some h => if conf g < conf h then some h else some g

/-- All learners, in the fixed preference order A, B, C. -/
def allLearners : List Learner := [Learner.A, Learner.B, Learner.C]

/-- The learners that are the leader for the class they themselves
predicted on this sample. -/
def ownLeaders (leader : Nat → Learner) (v : Votes) : List Learner :=
  allLearners.filter fun g => decide (leader (v.lab g) = g)

/-- Modelled from the spec: DecisionEngine's per-sample decision
procedure (§4.4); the implementation file `lccde_algorithm.py` is not in
the available source tree.  Case 1: unanimity.  Case 2: exactly two
agree on a majority label `m`; if the leader for `m` is one of the two
agreeing learners the result is `m`, otherwise the dissenter wins
exactly when its confidence strictly exceeds both agreeing learners'
confidences.  Case 3: all three disagree; among the learners that lead
their own predicted class, the one with the highest confidence wins;
if there is none, the highest-confidence learner overall wins. -/
def fuseLabel (leader : Nat → Learner) (v : Votes) : Nat :=
  if v.pA = v.pB ∧ v.pB = v.pC then v.pA
  else if v.pA = v.pB then
    if leader v.pA = Learner.A ∨ leader v.pA = Learner.B then v.pA
    else if v.cC > v.cA ∧ v.cC > v.cB then v.pC else v.pA
  else if v.pA = v.pC then
    if leader v.pA = Learner.A ∨ leader v.pA = Learner.C then v.pA
    else if v.cB > v.cA ∧ v.cB > v.cC then v.pB else v.pA
  else if v.pB = v.pC then
    if leader v.pB = Learner.B ∨ leader v.pB = Learner.C then v.pB
    else if v.cA > v.cB ∧ v.cA > v.cC then v.pA else v.pB
  else
    match pickMax v.conf (ownLeaders leader v) with
    | some g => v.lab g
    | none => v.lab ((pickMax v.conf allLearners).getD Learner.A)

/-- A concrete leader table for witness instantiations: every class led
by learner A. -/
def exLeader : Nat → Learner := fun _ => Learner.A

/-- Concrete unanimous sample: all three learners predict 7. -/
def vUnan : Votes := ⟨7, 7, 7, 1, 1, 1⟩

/-- Concrete majority sample: A and B predict 2, C dissents with 5. -/
def vMaj : Votes := ⟨2, 2, 5, 1, 1, 1⟩

/-- Concrete all-disagree sample: predictions 0, 1, 2. -/
def vDis : Votes := ⟨0, 1, 2, 1, 2, 3⟩

/-- Modelled from the spec: LeaderAssigner (§4.3); the implementation
file `lccde_algorithm.py` is not in the available source tree.
`leader(l)` is the argmax over learners of `score(learner, l)`, ties
resolved by the fixed preference order: the first learner in `order`
whose score is greater than or equal to every learner's score.  The
`Learner.A` fallback is unreachable for a non-empty order. -/
def leaderAssign (order : List Learner) (score : Learner → Nat → ℚ)
    (l : Nat) : Learner :=
  match order.find? (fun g => order.all fun g' =>
      decide (score g' l ≤ score g l)) with
  | some g => g
  | none => Learner.A

/-- True positives for label `l`: held-out samples (true, predicted)
where both the true and the predicted label are `l`. -/
def tpCount (pairs : List (Nat × Nat)) (l : Nat) : Nat :=
  pairs.countP fun s => decide (s.1 = l) && decide (s.2 = l)

/-- False positives for label `l`: samples predicted `l` whose true
label differs. -/
def fpCount (pairs : List (Nat × Nat)) (l : Nat) : Nat :=
  pairs.countP fun s => decide (s.1 ≠ l) && decide (s.2 = l)

/-- False negatives for label `l`: samples with true label `l` predicted
as something else. -/
def fnCount (pairs : List (Nat × Nat)) (l : Nat) : Nat :=
  pairs.countP fun s => decide (s.1 = l) && decide (s.2 ≠ l)

/-- Modelled from the spec: per-class precision with zero-division
defined as 0 (§4.2); the implementation file `lccde_algorithm.py` is not
in the available source tree. -/
def precisionQ (tp fp : Nat) : ℚ :=
  if tp + fp = 0 then 0 else (tp : ℚ) / ((tp + fp : Nat) : ℚ)

/-- Modelled from the spec: per-class recall with zero-division defined
as 0 (§4.2). -/
def recallQ (tp fn : Nat) : ℚ :=
  if tp + fn = 0 then 0 else (tp : ℚ) / ((tp + fn : Nat) : ℚ)

/-- Modelled from the spec: per-class F1 from precision and recall, with
zero-division defined as 0 (§4.2). -/
def f1FromCounts (tp fp fn : Nat) : ℚ :=
  if precisionQ tp fp + recallQ tp fn = 0 then 0
  else 2 * precisionQ tp fp * recallQ tp fn /
    (precisionQ tp fp + recallQ tp fn)

/-- Per-class F1 of one learner's held-out (true, predicted) pairs for
label `l`, treating `l` as the positive class. -/
def perClassF1 (pairs : List (Nat × Nat)) (l : Nat) : ℚ :=
  f1FromCounts (tpCount pairs l) (fpCount pairs l) (fnCount pairs l)

/-- Modelled from the spec: PerClassScoreTable rows of one learner
(§4.2, §3) — one entry per label of `L = {0, ..., K-1}`, built from the
learner's predictions on the held-out set. -/
def perClassScoreTable (K : Nat) (pairs : List (Nat × Nat)) :
    List (Nat × ℚ) :=
  (List.range K).map fun l => (l, perClassF1 pairs l)

/-- Modelled from the spec: EvaluationReporter's confusion matrix
(§4.5); the implementation file `lccde_algorithm.py` is not in the
available source tree.  A `|L| x |L|` matrix over `(true, predicted)`
pairs, rows indexed by true label and columns by predicted label. -/
def confusionMatrix (K : Nat) (pairs : List (Nat × Nat)) :
    List (List Nat) :=
  (List.range K).map fun i => (List.range K).map fun j =>
    pairs.countP fun s => decide (s.1 = i) && decide (s.2 = j)

/-- The fused label for sample `i` from the learners' raw outputs, or
`none` when some learner produced no output for `i`. -/
def fuseSample (leader : Nat → Learner)
    (raw : Learner → Nat → Option (Nat × ℚ)) (i : Nat) : Option Nat :=
  match raw Learner.A i with
  | none => none
  | some oa =>
    match raw Learner.B i with
    | none => none
    | some ob =>
      match raw Learner.C i with
      | none => none
      | some oc =>
        some (fuseLabel leader ⟨oa.1, ob.1, oc.1, oa.2, ob.2, oc.2⟩)

/-- Modelled from the spec: DecisionEngine's batch run with its failure
semantics (§4.4, §7); the implementation file `lccde_algorithm.py` is
not in the available source tree.  Each sample index is processed in
order; a learner producing no output (`none`) for a sample aborts the
run with a `PredictionError` carrying that learner and sample index, and
no default label is ever substituted. -/
def fuseBatchGo (leader : Nat → Learner)
    (raw : Learner → Nat → Option (Nat × ℚ)) :
    List Nat → Except (Learner × Nat) (List Nat)
  | [] => .ok []
  | i :: rest =>
    match raw Learner.A i with
    | none => .error (Learner.A, i)
    | some oa =>
      match raw Learner.B i with
      | none => .error (Learner.B, i)
      | some ob =>
        match raw Learner.C i with
        | none => .error (Learner.C, i)
        | some oc =>
          match fuseBatchGo leader raw rest with
          | .error e => .error e
          | .ok out =>
            .ok (fuseLabel leader ⟨oa.1, ob.1, oc.1, oa.2, ob.2, oc.2⟩ :: out)

/-- The DecisionEngine run over samples `0, ..., n-1`: either the full
list of fused predictions or a `PredictionError` naming the failing
learner and sample index. -/
def fuseBatch (leader : Nat → Learner)
    (raw : Learner → Nat → Option (Nat × ℚ)) (n : Nat) :
    Except (Learner × Nat) (List Nat) :=
  fuseBatchGo leader raw (List.range n)

/-- Concrete raw outputs for witness instantiations: learner B fails on
sample 1, everything else predicts label 0 with confidence 1. -/
def exRaw : Learner → Nat → Option (Nat × ℚ) := fun g i =>
  if g = Learner.B ∧ i = 1 then none else some (0, 1)

/-- A JSON scalar value, as appears in the hyperparameter maps. -/
inductive JVal
  | jnum (n : Int)
  | jstr (s : String)
  | jbool (b : Bool)
deriving DecidableEq

/-- The outcome of `JSON.parse` on one user-supplied parameter string,
as distinguished by `handleSubmit` in the CreateExperiment component
(src/unnamed/part_007): blank string, parse error, parsed non-object
value, or parsed plain object (key-value pairs in insertion order). -/
inductive ParamInput
  | blank
  | badJson
  | nonObject
  | objVal (o : List (String × JVal))

/-- JS `key in obj`: whether the object has the key. -/
def hasKey (o : List (String × JVal)) (k : String) : Bool :=
  o.any fun e => decide (e.1 = k)

/-- Embedded from src/unnamed/part_007 lines 75-91: the CatBoost map
actually stored for a user-supplied object — `verbose = 0` and
`boosting_type = "Plain"` are appended when those keys are absent. -/
def storedCatboost (o : List (String × JVal)) : List (String × JVal) :=
  let o1 := if hasKey o "verbose" then o
    else o ++ [("verbose", JVal.jnum 0)]
  if hasKey o1 "boosting_type" then o1
  else o1 ++ [("boosting_type", JVal.jstr "Plain")]

/-- The initial CatBoost parameters of `handleSubmit`. -/
def catboostDefault : List (String × JVal) :=
  [("verbose", JVal.jnum 0), ("boosting_type", JVal.jstr "Plain")]

/-- Embedded from src/unnamed/part_007 lines 49-62: the LightGBM map
stored in the experiment record for each parse outcome of the
user-supplied string. -/
def parsedLightgbm : ParamInput → Except String (List (String × JVal))
  | .blank => .ok []
  | .badJson => .error "Invalid LightGBM parameters JSON"
  | .nonObject => .ok []
  | .objVal o => .ok o

/-- Embedded from src/unnamed/part_007 lines 64-73: the XGBoost map
stored in the experiment record. -/
def parsedXgboost : ParamInput → Except String (List (String × JVal))
  | .blank => .ok []
  | .badJson => .error "Invalid XGBoost parameters JSON"
  | .nonObject => .ok []
  | .objVal o => .ok o

/-- Embedded from src/unnamed/part_007 lines 75-91: the CatBoost map
stored in the experiment record. -/
def parsedCatboost : ParamInput → Except String (List (String × JVal))
  | .blank => .ok catboostDefault
  | .badJson => .error "Invalid CatBoost parameters JSON"
  | .nonObject => .ok catboostDefault
  | .objVal o => .ok (storedCatboost o)

/-- A concrete CatBoost map for witness instantiations, already carrying
both keys the code would otherwise add. -/
def exCatParams : List (String × JVal) :=
  [("verbose", JVal.jnum 1), ("boosting_type", JVal.jstr "Ordered")]

/-- JS `Math.round` on the nonnegative values arising in `getColor`:
round half up. -/
def jsRound (q : ℚ) : ℤ := ⌊q + 1 / 2⌋

/-- Embedded from src/unnamed/part_004 line 12 (duplicated in
src/unnamed/part_005): `Math.max(...matrix.flat())`, taken as 0 for a
matrix with no cells. -/
def maxFlat (matrix : List (List Nat)) : Nat :=
  matrix.flatten.foldr max 0

/-- Embedded from src/unnamed/part_004 lines 14-20 (duplicated in
src/unnamed/part_005): the `getColor` cell-color computation of the
ConfusionMatrix component.  JS division of a cell by a zero maximum
yields NaN (or Infinity), which is modelled as `none`; otherwise the
red and green components are `Math.round(255 * (1 - value / maxValue))`
and blue is 255. -/
def getColor (maxValue : Nat) (value : Nat) : Option (ℤ × ℤ × ℤ) :=
  if maxValue = 0 then none
  else
    let intensity : ℚ := (value : ℚ) / (maxValue : ℚ)
    let r := jsRound (255 * (1 - intensity))
    some (r, r, 255)

theorem pickMax_mem {conf : Learner → ℚ} :
    ∀ {l : List Learner} {g : Learner}, pickMax conf l = some g → g ∈ l := by
  intro l
  induction l with
  | nil => intro g h; simp [pickMax] at h
  | cons a rest ih =>
    intro g h
    cases hrest : pickMax conf rest with
    | none =>
      simp only [pickMax, hrest] at h
      simp at h
      simp [h]
    | some b =>
      simp only [pickMax, hrest] at h
      by_cases hc : conf a < conf b
      · rw [if_pos hc] at h
        have hb := ih hrest
        simp at h
        subst h
        exact List.mem_cons_of_mem _ hb
      · rw [if_neg hc] at h
        simp at h
        simp [h]

theorem pickMax_ne_none {conf : Learner → ℚ} {l : List Learner}
    (h : l ≠ []) : pickMax conf l ≠ none := by
  cases l with
  | nil => exact absurd rfl h
  | cons a rest =>
    simp only [pickMax]
    cases pickMax conf rest with
    | none => simp
    | some b => by_cases hc : conf a < conf b <;> simp [hc]

theorem pickMax_isMax {conf : Learner → ℚ} :
    ∀ {l : List Learner} {g : Learner}, pickMax conf l = some g →
      ∀ g' ∈ l, conf g' ≤ conf g := by
  intro l
  induction l with
  | nil => intro g h; simp [pickMax] at h
  | cons a rest ih =>
    intro g h g' hg'
    cases hrest : pickMax conf rest with
    | none =>
      simp only [pickMax, hrest] at h
      simp at h
      subst h
      cases rest with
      | nil => simp at hg'; simp [hg']
      | cons b t =>
        exact absurd hrest (pickMax_ne_none (by simp))
    | some b =>
      simp only [pickMax, hrest] at h
      by_cases hc : conf a < conf b
      · rw [if_pos hc] at h
        simp at h
        subst h
        rcases List.mem_cons.1 hg' with h1 | h1
        · subst h1; exact le_of_lt hc
        · exact ih hrest g' h1
      · rw [if_neg hc] at h
        simp at h
        subst h
        rcases List.mem_cons.1 hg' with h1 | h1
        · subst h1; exact le_refl _
        · exact le_trans (ih hrest g' h1) (not_lt.1 hc)

theorem lab_mem_votes (v : Votes) (g : Learner) :
    v.lab g = v.pA ∨ v.lab g = v.pB ∨ v.lab g = v.pC := by
  cases g <;> simp [Votes.lab]

/-- C1: for every leader table, confidences and triple of predicted
labels, the DecisionEngine's per-sample procedure returns a label that
one of the three base learners proposed. -/
theorem fuseLabel_total (leader : Nat → Learner) (v : Votes) :
    fuseLabel leader v = v.pA ∨ fuseLabel leader v = v.pB ∨
      fuseLabel leader v = v.pC := by
  unfold fuseLabel
  by_cases h1 : v.pA = v.pB ∧ v.pB = v.pC
  · simp [h1]
  rw [if_neg h1]
  by_cases h2 : v.pA = v.pB
  · rw [if_pos h2]
    by_cases h3 : leader v.pA = Learner.A ∨ leader v.pA = Learner.B
    · simp [h3]
    rw [if_neg h3]
    by_cases h4 : v.cC > v.cA ∧ v.cC > v.cB <;> simp [h4]
  rw [if_neg h2]
  by_cases h3 : v.pA = v.pC
  · rw [if_pos h3]
    by_cases h4 : leader v.pA = Learner.A ∨ leader v.pA = Learner.C
    · simp [h4]
    rw [if_neg h4]
    by_cases h5 : v.cB > v.cA ∧ v.cB > v.cC <;> simp [h5]
  rw [if_neg h3]
  by_cases h4 : v.pB = v.pC
  · rw [if_pos h4]
    by_cases h5 : leader v.pB = Learner.B ∨ leader v.pB = Learner.C
    · simp [h5]
    rw [if_neg h5]
    by_cases h6 : v.cA > v.cB ∧ v.cA > v.cC <;> simp [h6]
  rw [if_neg h4]
  cases hp : pickMax v.conf (ownLeaders leader v) with
  | some g => exact lab_mem_votes v g
  | none => exact lab_mem_votes v _

/-- C4: if all three learners predict the same label, the fused output
is that label, for every leader table and all confidences. -/
theorem fuseLabel_unanimous (leader : Nat → Learner) (v : Votes) (l : Nat)
    (hA : v.pA = l) (hB : v.pB = l) (hC : v.pC = l) :
    fuseLabel leader v = l := by
  unfold fuseLabel
  rw [if_pos ⟨hA.trans hB.symm, hB.trans hC.symm⟩]
  exact hA

/-- Witness for C4 at a concrete sample. -/
theorem fuseLabel_unanimous_witness : fuseLabel exLeader vUnan = 7 :=
  fuseLabel_unanimous exLeader vUnan 7 rfl rfl rfl

/-- C2: when exactly two learners agree on a majority label `m` and one
dissents with `d`, the fused output is `m` whenever the leader for `m`
is one of the two agreeing learners; otherwise it is `d` exactly when
the dissenter's confidence strictly exceeds both agreeing learners'
confidences, and `m` in all remaining cases.  The three conjuncts cover
the three possible dissenting learners (C, B, A). -/
theorem fuseLabel_majority (leader : Nat → Learner) (v : Votes) :
    (v.pA = v.pB → v.pA ≠ v.pC →
      fuseLabel leader v =
        if leader v.pA = Learner.A ∨ leader v.pA = Learner.B then v.pA
        else if v.cC > v.cA ∧ v.cC > v.cB then v.pC else v.pA) ∧
    (v.pA = v.pC → v.pA ≠ v.pB →
      fuseLabel leader v =
        if leader v.pA = Learner.A ∨ leader v.pA = Learner.C then v.pA
        else if v.cB > v.cA ∧ v.cB > v.cC then v.pB else v.pA) ∧
    (v.pB = v.pC → v.pB ≠ v.pA →
      fuseLabel leader v =
        if leader v.pB = Learner.B ∨ leader v.pB = Learner.C then v.pB
        else if v.cA > v.cB ∧ v.cA > v.cC then v.pA else v.pB) := by
  refine ⟨?_, ?_, ?_⟩
  · intro hm hd
    unfold fuseLabel
    rw [if_neg (by rintro ⟨h1, h2⟩; exact hd (hm.trans h2)), if_pos hm]
  · intro hm hd
    unfold fuseLabel
    rw [if_neg (by rintro ⟨h1, h2⟩; exact hd h1), if_neg (fun h => hd h),
      if_pos hm]
  · intro hm hd
    unfold fuseLabel
    rw [if_neg (by rintro ⟨h1, h2⟩; exact hd (h1.symm)),
      if_neg (fun h => hd h.symm),
      if_neg (fun h => hd (hm.trans h.symm)), if_pos hm]

/-- Witness for C2 at a concrete sample: A and B agree on 2, the leader
for 2 is A (an agreeing learner), so the majority label 2 wins. -/
theorem fuseLabel_majority_witness : fuseLabel exLeader vMaj = 2 := by
  have h := (fuseLabel_majority exLeader vMaj).1 rfl (by decide)
  rw [if_pos (Or.inl (show exLeader vMaj.pA = Learner.A from rfl))] at h
  exact h

/-- C3: when the three predicted labels are pairwise distinct, the fused
output is the prediction of a maximal-confidence learner among those
that lead their own predicted class, when such a learner exists; when no
learner leads its own prediction, it is the prediction of a
maximal-confidence learner among all three. -/
theorem fuseLabel_allDisagree (leader : Nat → Learner) (v : Votes)
    (hab : v.pA ≠ v.pB) (hac : v.pA ≠ v.pC) (hbc : v.pB ≠ v.pC) :
    (ownLeaders leader v ≠ [] →
      ∃ g, g ∈ ownLeaders leader v ∧
        (∀ g' ∈ ownLeaders leader v, v.conf g' ≤ v.conf g) ∧
        fuseLabel leader v = v.lab g) ∧
    (ownLeaders leader v = [] →
      ∃ g : Learner, (∀ g' : Learner, v.conf g' ≤ v.conf g) ∧
        fuseLabel leader v = v.lab g) := by
  have hfuse : fuseLabel leader v =
      match pickMax v.conf (ownLeaders leader v) with
      | some g => v.lab g
      | none => v.lab ((pickMax v.conf allLearners).getD Learner.A) := by
    unfold fuseLabel
    rw [if_neg (by rintro ⟨h1, h2⟩; exact hab h1), if_neg hab,
      if_neg hac, if_neg hbc]
  constructor
  · intro hne
    cases hp : pickMax v.conf (ownLeaders leader v) with
    | none => exact absurd hp (pickMax_ne_none hne)
    | some g =>
      refine ⟨g, pickMax_mem hp, pickMax_isMax hp, ?_⟩
      rw [hfuse, hp]
  · intro hemp
    cases hp : pickMax v.conf allLearners with
    | none => exact absurd hp (pickMax_ne_none (by simp [allLearners]))
    | some g =>
      refine ⟨g, ?_, ?_⟩
      · intro g'
        exact pickMax_isMax hp g' (by cases g' <;> simp [allLearners])
      · rw [hfuse, hemp]
        show v.lab ((pickMax v.conf allLearners).getD Learner.A) = v.lab g
        rw [hp]
        rfl

/-- Witness for C3 at a concrete sample: predictions 0, 1, 2 with every
class led by A, so A is the only learner leading its own prediction and
its label 0 wins. -/
theorem fuseLabel_allDisagree_witness : fuseLabel exLeader vDis = 0 := by
  obtain ⟨g, hg, _, he⟩ :=
    (fuseLabel_allDisagree exLeader vDis (by decide) (by decide)
      (by decide)).1 (by decide)
  have hOwn : ownLeaders exLeader vDis = [Learner.A] := rfl
  rw [hOwn] at hg
  simp at hg
  subst hg
  exact he

theorem find?_decomp {p : Learner → Bool} :
    ∀ {l : List Learner} {g : Learner}, l.find? p = some g →
      p g = true ∧ ∃ pre post, l = pre ++ g :: post ∧
        ∀ e ∈ pre, p e = false := by
  intro l
  induction l with
  | nil => intro g h; simp [List.find?] at h
  | cons a t ih =>
    intro g h
    by_cases hp : p a
    · rw [List.find?_cons_of_pos _ hp] at h
      simp at h
      subst h
      exact ⟨hp, [], t, rfl, by simp⟩
    · rw [List.find?_cons_of_neg _ (by simpa using hp)] at h
      obtain ⟨hg, pre, post, heq, hpre⟩ := ih h
      refine ⟨hg, a :: pre, post, by simp [heq], ?_⟩
      intro e he
      rcases List.mem_cons.1 he with h1 | h1
      · subst h1; simpa using hp
      · exact hpre e h1

theorem find?_of_exists {p : Learner → Bool} :
    ∀ {l : List Learner}, (∃ x ∈ l, p x = true) →
      ∃ g, l.find? p = some g := by
  intro l
  induction l with
  | nil => intro h; obtain ⟨x, hx, _⟩ := h; simp at hx
  | cons a t ih =>
    intro h
    by_cases hp : p a
    · exact ⟨a, List.find?_cons_of_pos _ hp⟩
    · obtain ⟨x, hx, hpx⟩ := h
      rcases List.mem_cons.1 hx with h1 | h1
      · subst h1; exact absurd hpx hp
      · obtain ⟨g, hg⟩ := ih ⟨x, h1, hpx⟩
        exact ⟨g, by rw [List.find?_cons_of_neg _ (by simpa using hp)]; exact hg⟩

/-- C5: LeaderAssigner picks, for every label, the first learner in the
preference order whose score attains the maximum: the result is in the
order, its score dominates every learner's score, every learner strictly
earlier in the order scores strictly less, the assignment is a pure
deterministic function of the score table and the order, and a label
scored 0 by all learners is assigned the first learner of the order. -/
theorem leaderAssign_spec (order : List Learner)
    (score score' : Learner → Nat → ℚ) (l : Nat) (hne : order ≠ []) :
    (leaderAssign order score l ∈ order ∧
      (∀ g' ∈ order, score g' l ≤ score (leaderAssign order score l) l) ∧
      (∃ pre post, order = pre ++ leaderAssign order score l :: post ∧
        ∀ e ∈ pre, score e l < score (leaderAssign order score l) l)) ∧
    (score = score' → leaderAssign order score l = leaderAssign order score' l) ∧
    ((∀ g, score g l = 0) → leaderAssign order score l = order.head hne) := by
  have hmax : ∃ g ∈ order, ∀ g' ∈ order, score g' l ≤ score g l := by
    cases hp : pickMax (fun g => score g l) order with
    | none => exact absurd hp (pickMax_ne_none hne)
    | some g => exact ⟨g, pickMax_mem hp, pickMax_isMax hp⟩
  obtain ⟨gm, hgm, hgmax⟩ := hmax
  have hpred : (order.all fun g' => decide (score g' l ≤ score gm l)) = true := by
    rw [List.all_eq_true]
    intro g' hg'
    exact decide_eq_true (hgmax g' hg')
  obtain ⟨gf, hgf⟩ := @find?_of_exists
    (fun g => order.all fun g' => decide (score g' l ≤ score g l)) order
    ⟨gm, hgm, hpred⟩
  have hres : leaderAssign order score l = gf := by
    unfold leaderAssign
    rw [hgf]
  obtain ⟨hpgf, pre, post, heq, hpre⟩ := find?_decomp hgf
  have hgfmax : ∀ g' ∈ order, score g' l ≤ score gf l := by
    intro g' hg'
    have := List.all_eq_true.1 hpgf g' hg'
    exact of_decide_eq_true this
  refine ⟨⟨?_, ?_, ?_⟩, ?_, ?_⟩
  · rw [hres, heq]
    exact List.mem_append_right _ (List.mem_cons_self _ _)
  · rw [hres]; exact hgfmax
  · refine ⟨pre, post, by rw [hres]; exact heq, ?_⟩
    intro e he
    rw [hres]
    have hef : (order.all fun g' => decide (score g' l ≤ score e l)) = false :=
      hpre e he
    rw [List.all_eq_false] at hef
    obtain ⟨g', hg', hne'⟩ := hef
    have h1 : ¬ score g' l ≤ score e l := by
      intro hcon
      exact hne' (decide_eq_true hcon)
    have h2 : score e l < score g' l := lt_of_not_le h1
    exact lt_of_lt_of_le h2 (hgfmax g' hg')
  · intro hss
    rw [hss]
  · intro hzero
    cases order with
    | nil => exact absurd rfl hne
    | cons a t =>
      unfold leaderAssign
      rw [List.find?_cons_of_pos _ (by
        rw [List.all_eq_true]
        intro g' _
        exact decide_eq_true (by rw [hzero g', hzero a]))]
      rfl

/-- Witness for C5: with every score 0, label 5 is assigned the first
learner of the preference order A, B, C. -/
theorem leaderAssign_spec_witness :
    leaderAssign allLearners (fun _ _ => 0) 5 = Learner.A := by
  have h := (leaderAssign_spec allLearners (fun _ _ => 0) (fun _ _ => 0) 5
    (by decide)).2.2 (fun g => rfl)
  exact h

theorem precisionQ_bounds (tp fp : Nat) :
    0 ≤ precisionQ tp fp ∧ precisionQ tp fp ≤ 1 := by
  unfold precisionQ
  by_cases h : tp + fp = 0
  · simp [h]
  · rw [if_neg h]
    have hpos : (0 : ℚ) < ((tp + fp : Nat) : ℚ) := by
      exact_mod_cast Nat.pos_of_ne_zero h
    constructor
    · exact div_nonneg (by exact_mod_cast Nat.zero_le tp) (le_of_lt hpos)
    · rw [div_le_one hpos]
      exact_mod_cast Nat.le_add_right tp fp

theorem recallQ_eq_precisionQ (tp fn : Nat) :
    recallQ tp fn = precisionQ tp fn := rfl

theorem f1FromCounts_bounds (tp fp fn : Nat) :
    0 ≤ f1FromCounts tp fp fn ∧ f1FromCounts tp fp fn ≤ 1 := by
  obtain ⟨hp0, hp1⟩ := precisionQ_bounds tp fp
  obtain ⟨hr0, hr1⟩ := precisionQ_bounds tp fn
  rw [← recallQ_eq_precisionQ] at hr0 hr1
  unfold f1FromCounts
  by_cases h : precisionQ tp fp + recallQ tp fn = 0
  · simp [h]
  · rw [if_neg h]
    have hpos : 0 < precisionQ tp fp + recallQ tp fn :=
      lt_of_le_of_ne (add_nonneg hp0 hr0) (Ne.symm h)
    constructor
    · exact div_nonneg (by positivity) (le_of_lt hpos)
    · rw [div_le_one hpos]
      nlinarith [hp0, hp1, hr0, hr1]

theorem f1FromCounts_tp_zero (fp fn : Nat) : f1FromCounts 0 fp fn = 0 := by
  have hp : precisionQ 0 fp = 0 := by
    unfold precisionQ
    by_cases h : 0 + fp = 0 <;> simp [h]
  have hr : recallQ 0 fn = 0 := by
    rw [recallQ_eq_precisionQ]
    unfold precisionQ
    by_cases h : 0 + fn = 0 <;> simp [h]
  unfold f1FromCounts
  rw [hp, hr]
  simp

/-- C6: the PerClassScoreTable of any learner has an entry for every
label of `L = {0, ..., K-1}`; every entry lies in [0,1]; a label with
zero true positives and zero false positives (hence zero predicted
positives) scores exactly 0, with no division error; and a label absent
from the held-out set (neither true nor predicted anywhere) scores 0. -/
theorem perClassScorer_spec (K : Nat) (pairs : List (Nat × Nat)) :
    (∀ l, l < K → (l, perClassF1 pairs l) ∈ perClassScoreTable K pairs) ∧
    (∀ e ∈ perClassScoreTable K pairs, 0 ≤ e.2 ∧ e.2 ≤ 1) ∧
    (∀ l, tpCount pairs l = 0 → fpCount pairs l = 0 →
      perClassF1 pairs l = 0) ∧
    (∀ l, (∀ s ∈ pairs, s.1 ≠ l ∧ s.2 ≠ l) → perClassF1 pairs l = 0) := by
  refine ⟨?_, ?_, ?_, ?_⟩
  · intro l hl
    unfold perClassScoreTable
    exact List.mem_map.2 ⟨l, List.mem_range.2 hl, rfl⟩
  · intro e he
    unfold perClassScoreTable at he
    obtain ⟨l, _, hle⟩ := List.mem_map.1 he
    rw [← hle]
    exact f1FromCounts_bounds _ _ _
  · intro l htp _
    unfold perClassF1
    rw [htp]
    exact f1FromCounts_tp_zero _ _
  · intro l habs
    unfold perClassF1
    have htp : tpCount pairs l = 0 := by
      unfold tpCount
      rw [List.countP_eq_zero]
      intro s hs
      have := (habs s hs).1
      simp [this]
    rw [htp]
    exact f1FromCounts_tp_zero _ _

/-- Witness for C6: a label with no true or predicted positives scores
exactly 0. -/
theorem perClassScorer_spec_witness : perClassF1 [(1, 2)] 0 = 0 :=
  (perClassScorer_spec 3 [(1, 2)]).2.2.1 0 (by decide) (by decide)

theorem sum_map_add_nat (l : List Nat) (f g : Nat → Nat) :
    (l.map fun x => f x + g x).sum = (l.map f).sum + (l.map g).sum := by
  induction l with
  | nil => simp
  | cons a t ih =>
    simp only [List.map_cons, List.sum_cons, ih]
    omega

theorem sum_map_indicator (c : Nat) :
    ∀ (K p : Nat), p < K →
      ((List.range K).map fun j => if j = p then c else 0).sum = c := by
  intro K
  induction K with
  | zero => intro p hp; omega
  | succ n ih =>
    intro p hp
    rw [List.range_succ, List.map_append, List.sum_append]
    by_cases h : p = n
    · subst h
      have hz : ((List.range p).map fun j => if j = p then c else 0)
          = (List.range p).map fun _ => 0 := by
        apply List.map_congr_left
        intro j hj
        rw [if_neg (Nat.ne_of_lt (List.mem_range.1 hj))]
      rw [hz]
      simp
    · have hp' : p < n := by omega
      rw [ih p hp']
      simp [Ne.symm h]

theorem countP_row_split (K i : Nat) (pairs : List (Nat × Nat))
    (hK : ∀ s ∈ pairs, s.2 < K) :
    ((List.range K).map fun j =>
        pairs.countP fun s => decide (s.1 = i) && decide (s.2 = j)).sum
      = pairs.countP fun s => decide (s.1 = i) := by
  induction pairs with
  | nil => simp
  | cons a t ih =>
    have hK' : ∀ s ∈ t, s.2 < K := fun s hs => hK s (List.mem_cons_of_mem _ hs)
    simp only [List.countP_cons]
    have hsplit : ((List.range K).map fun j =>
        (t.countP fun s => decide (s.1 = i) && decide (s.2 = j)) +
          if (decide (a.1 = i) && decide (a.2 = j)) = true then 1 else 0).sum
        = ((List.range K).map fun j =>
            t.countP fun s => decide (s.1 = i) && decide (s.2 = j)).sum +
          ((List.range K).map fun j =>
            if (decide (a.1 = i) && decide (a.2 = j)) = true
            then 1 else 0).sum :=
      sum_map_add_nat _ _ _
    rw [hsplit, ih hK']
    by_cases ha : a.1 = i
    · have hfun : (fun j =>
          if (decide (a.1 = i) && decide (a.2 = j)) = true then 1 else 0)
          = fun j => if j = a.2 then 1 else 0 := by
        funext j
        by_cases hj : j = a.2 <;> simp [ha, hj, eq_comm]
      rw [hfun, sum_map_indicator 1 K a.2 (hK a (List.mem_cons_self a t))]
      simp [ha]
    · have hfun : (fun j =>
          if (decide (a.1 = i) && decide (a.2 = j)) = true then 1 else 0)
          = fun _ : Nat => (0 : Nat) := by
        funext j
        simp [ha]
      rw [hfun]
      simp [ha]

theorem getD_map_range {α : Type} (K i : Nat) (f : Nat → α) (d : α)
    (h : i < K) : ((List.range K).map f).getD i d = f i := by
  rw [List.getD_eq_getElem?_getD, List.getElem?_map, List.getElem?_range h]
  rfl

/-- C7: the confusion matrix over `(true, predicted)` pairs whose
predicted labels lie in `L = {0, ..., K-1}` has `K` rows of `K` columns,
cell `(i, j)` counts samples with true label `i` predicted as `j`, and
the sum of row `i` equals the number of samples whose true label is
`i`. -/
theorem confusionMatrix_spec (K : Nat) (pairs : List (Nat × Nat))
    (hK : ∀ s ∈ pairs, s.2 < K) :
    (confusionMatrix K pairs).length = K ∧
    (∀ row ∈ confusionMatrix K pairs, row.length = K) ∧
    (∀ i j, i < K → j < K →
      ((confusionMatrix K pairs).getD i []).getD j 0
        = pairs.countP fun s => decide (s.1 = i) && decide (s.2 = j)) ∧
    (∀ i, i < K →
      ((confusionMatrix K pairs).getD i []).sum
        = pairs.countP fun s => decide (s.1 = i)) := by
  refine ⟨?_, ?_, ?_, ?_⟩
  · simp [confusionMatrix]
  · intro row hrow
    unfold confusionMatrix at hrow
    obtain ⟨i, _, hrow⟩ := List.mem_map.1 hrow
    rw [← hrow]
    simp
  · intro i j hi hj
    unfold confusionMatrix
    rw [getD_map_range K i _ _ hi, getD_map_range K j _ _ hj]
  · intro i hi
    unfold confusionMatrix
    rw [getD_map_range K i _ _ hi]
    exact countP_row_split K i pairs hK

/-- Witness for C7: a concrete 2x2 confusion matrix whose first row sums
to the number of samples with true label 0. -/
theorem confusionMatrix_spec_witness :
    ((confusionMatrix 2 [(0, 1), (1, 1), (0, 0)]).getD 0 []).sum = 2 := by
  have h := (confusionMatrix_spec 2 [(0, 1), (1, 1), (0, 0)]
    (by decide)).2.2.2 0 (by decide)
  rw [h]
  decide

theorem fuseBatchGo_error {leader : Nat → Learner}
    {raw : Learner → Nat → Option (Nat × ℚ)} :
    ∀ {idxs : List Nat} {g : Learner} {i : Nat},
      fuseBatchGo leader raw idxs = .error (g, i) →
        i ∈ idxs ∧ raw g i = none := by
  intro idxs
  induction idxs with
  | nil => intro g i h; simp [fuseBatchGo] at h
  | cons a rest ih =>
    intro g i h
    cases hA : raw Learner.A a with
    | none =>
      simp only [fuseBatchGo, hA, Except.error.injEq, Prod.mk.injEq] at h
      obtain ⟨hg, hi⟩ := h
      subst hg
      subst hi
      exact ⟨List.mem_cons_self _ _, hA⟩
    | some oa =>
      cases hB : raw Learner.B a with
      | none =>
        simp only [fuseBatchGo, hA, hB, Except.error.injEq,
          Prod.mk.injEq] at h
        obtain ⟨hg, hi⟩ := h
        subst hg
        subst hi
        exact ⟨List.mem_cons_self _ _, hB⟩
      | some ob =>
        cases hC : raw Learner.C a with
        | none =>
          simp only [fuseBatchGo, hA, hB, hC, Except.error.injEq,
            Prod.mk.injEq] at h
          obtain ⟨hg, hi⟩ := h
          subst hg
          subst hi
          exact ⟨List.mem_cons_self _ _, hC⟩
        | some oc =>
          cases hrec : fuseBatchGo leader raw rest with
          | error e =>
            simp only [fuseBatchGo, hA, hB, hC, hrec,
              Except.error.injEq] at h
            subst h
            obtain ⟨hmem, hnone⟩ := ih hrec
            exact ⟨List.mem_cons_of_mem _ hmem, hnone⟩
          | ok out =>
            simp only [fuseBatchGo, hA, hB, hC, hrec] at h
            exact Except.noConfusion h

theorem fuseBatchGo_ok_of_all {leader : Nat → Learner}
    {raw : Learner → Nat → Option (Nat × ℚ)} :
    ∀ {idxs : List Nat}, (∀ i ∈ idxs, ∀ g, (raw g i).isSome) →
      ∃ out, fuseBatchGo leader raw idxs = .ok out := by
  intro idxs
  induction idxs with
  | nil => intro _; exact ⟨[], rfl⟩
  | cons a rest ih =>
    intro hall
    obtain ⟨oa, hA⟩ := Option.isSome_iff_exists.1
      (hall a (List.mem_cons_self _ _) Learner.A)
    obtain ⟨ob, hB⟩ := Option.isSome_iff_exists.1
      (hall a (List.mem_cons_self _ _) Learner.B)
    obtain ⟨oc, hC⟩ := Option.isSome_iff_exists.1
      (hall a (List.mem_cons_self _ _) Learner.C)
    obtain ⟨out, hout⟩ := ih fun i hi g =>
      hall i (List.mem_cons_of_mem _ hi) g
    exact ⟨fuseLabel leader ⟨oa.1, ob.1, oc.1, oa.2, ob.2, oc.2⟩ :: out,
      by simp only [fuseBatchGo, hA, hB, hC, hout]⟩

theorem fuseBatchGo_all_of_ok {leader : Nat → Learner}
    {raw : Learner → Nat → Option (Nat × ℚ)} :
    ∀ {idxs : List Nat} {out : List Nat},
      fuseBatchGo leader raw idxs = .ok out →
        ∀ i ∈ idxs, ∀ g, (raw g i).isSome := by
  intro idxs
  induction idxs with
  | nil => intro out _ i hi; simp at hi
  | cons a rest ih =>
    intro out h i hi g
    cases hA : raw Learner.A a with
    | none =>
      simp only [fuseBatchGo, hA] at h
      exact Except.noConfusion h
    | some oa =>
      cases hB : raw Learner.B a with
      | none =>
        simp only [fuseBatchGo, hA, hB] at h
        exact Except.noConfusion h
      | some ob =>
        cases hC : raw Learner.C a with
        | none =>
          simp only [fuseBatchGo, hA, hB, hC] at h
          exact Except.noConfusion h
        | some oc =>
          cases hrec : fuseBatchGo leader raw rest with
          | error e =>
            simp only [fuseBatchGo, hA, hB, hC, hrec] at h
            exact Except.noConfusion h
          | ok out' =>
            rcases List.mem_cons.1 hi with h1 | h1
            · subst h1
              cases g
              · rw [hA]; rfl
              · rw [hB]; rfl
              · rw [hC]; rfl
            · exact ih hrec i h1 g

theorem fuseBatchGo_forall2 {leader : Nat → Learner}
    {raw : Learner → Nat → Option (Nat × ℚ)} :
    ∀ {idxs : List Nat} {out : List Nat},
      fuseBatchGo leader raw idxs = .ok out →
        List.Forall₂ (fun i o => fuseSample leader raw i = some o)
          idxs out := by
  intro idxs
  induction idxs with
  | nil =>
    intro out h
    simp only [fuseBatchGo, Except.ok.injEq] at h
    subst h
    exact List.Forall₂.nil
  | cons a rest ih =>
    intro out h
    cases hA : raw Learner.A a with
    | none =>
      simp only [fuseBatchGo, hA] at h
      exact Except.noConfusion h
    | some oa =>
      cases hB : raw Learner.B a with
      | none =>
        simp only [fuseBatchGo, hA, hB] at h
        exact Except.noConfusion h
      | some ob =>
        cases hC : raw Learner.C a with
        | none =>
          simp only [fuseBatchGo, hA, hB, hC] at h
          exact Except.noConfusion h
        | some oc =>
          cases hrec : fuseBatchGo leader raw rest with
          | error e =>
            simp only [fuseBatchGo, hA, hB, hC, hrec] at h
            exact Except.noConfusion h
          | ok out' =>
            simp only [fuseBatchGo, hA, hB, hC, hrec,
              Except.ok.injEq] at h
            subst h
            refine List.Forall₂.cons ?_ (ih hrec)
            simp only [fuseSample, hA, hB, hC]

/-- C8: the DecisionEngine batch run returns a result exactly when every
learner produced an output for every sample; an error identifies a
learner and an in-range sample index for which that learner produced no
output; and a returned result pairs every sample index with the fused
label computed from the three learners' actual outputs for that index,
so no entry is a silently substituted default. -/
theorem fuseBatch_spec (leader : Nat → Learner)
    (raw : Learner → Nat → Option (Nat × ℚ)) (n : Nat) :
    ((∃ out, fuseBatch leader raw n = .ok out) ↔
      ∀ i, i < n → ∀ g, (raw g i).isSome) ∧
    (∀ g i, fuseBatch leader raw n = .error (g, i) →
      i < n ∧ raw g i = none) ∧
    (∀ out, fuseBatch leader raw n = .ok out →
      List.Forall₂ (fun i o => fuseSample leader raw i = some o)
        (List.range n) out) := by
  refine ⟨⟨?_, ?_⟩, ?_, ?_⟩
  · intro ⟨out, hout⟩ i hi g
    exact fuseBatchGo_all_of_ok hout i (List.mem_range.2 hi) g
  · intro hall
    exact fuseBatchGo_ok_of_all fun i hi g => hall i (List.mem_range.1 hi) g
  · intro g i h
    obtain ⟨hmem, hnone⟩ := fuseBatchGo_error h
    exact ⟨List.mem_range.1 hmem, hnone⟩
  · intro out hout
    exact fuseBatchGo_forall2 hout

/-- Witness for C8: with learner B failing on sample 1, the batch run
over two samples reports the failing learner and index, which is indeed
in range and has no output. -/
theorem fuseBatch_spec_witness : 1 < 2 ∧ exRaw Learner.B 1 = none :=
  (fuseBatch_spec exLeader exRaw 2).2.1 Learner.B 1 rfl

/-- C9 counterexample: a user-supplied CatBoost map without the keys
`verbose` and `boosting_type` is not stored as supplied — the component
appends both keys — so the stored map is not exactly the user-supplied
map. -/
theorem catboost_params_modified :
    parsedCatboost (ParamInput.objVal [("depth", JVal.jnum 5)]) ≠
      Except.ok [("depth", JVal.jnum 5)] := by
  intro h
  have h2 := Except.ok.inj h
  exact absurd h2 (by decide)

/-- C9 amended: the LightGBM and XGBoost maps stored in the experiment
record are exactly the user-supplied objects, while the stored CatBoost
map is exactly the user-supplied object followed by `verbose = 0` when
the key `verbose` is absent and then by `boosting_type = "Plain"` when
the key `boosting_type` is absent; in particular a map already carrying
both keys is stored unmodified and a missing key is always appended
with its default value. -/
theorem hyperparams_passthrough (o : List (String × JVal)) :
    parsedLightgbm (ParamInput.objVal o) = Except.ok o ∧
    parsedXgboost (ParamInput.objVal o) = Except.ok o ∧
    parsedCatboost (ParamInput.objVal o) = Except.ok (o ++
      (if hasKey o "verbose" then [] else [("verbose", JVal.jnum 0)]) ++
      (if hasKey o "boosting_type" then []
        else [("boosting_type", JVal.jstr "Plain")])) := by
  refine ⟨rfl, rfl, ?_⟩
  simp only [parsedCatboost, storedCatboost]
  by_cases hv : hasKey o "verbose" = true
  · rw [if_pos hv]
    by_cases hb : hasKey o "boosting_type" = true
    · rw [if_pos hb]
      simp [hv, hb]
    · rw [if_neg hb]
      simp [hv, hb]
  · rw [if_neg hv]
    have hkey : hasKey (o ++ [("verbose", JVal.jnum 0)]) "boosting_type"
        = hasKey o "boosting_type" := by
      unfold hasKey
      rw [List.any_append]
      simp
    rw [hkey]
    by_cases hb : hasKey o "boosting_type" = true
    · rw [if_pos hb]
      simp [hv, hb]
    · rw [if_neg hb]
      simp [hv, hb]

/-- Witness for the amended C9: a CatBoost map already carrying both
default keys is stored exactly as supplied, as is the LightGBM map. -/
theorem hyperparams_passthrough_witness :
    parsedCatboost (ParamInput.objVal exCatParams) =
      Except.ok exCatParams ∧
    parsedLightgbm (ParamInput.objVal exCatParams) =
      Except.ok exCatParams := by
  obtain ⟨hl, _, hcat⟩ := hyperparams_passthrough exCatParams
  refine ⟨?_, hl⟩
  rw [hcat]
  have he : exCatParams ++
      (if hasKey exCatParams "verbose" then []
        else [("verbose", JVal.jnum 0)]) ++
      (if hasKey exCatParams "boosting_type" then []
        else [("boosting_type", JVal.jstr "Plain")]) = exCatParams := by
    decide
  rw [he]

theorem foldr_max_eq_zero_iff (l : List Nat) :
    l.foldr max 0 = 0 ↔ ∀ x ∈ l, x = 0 := by
  induction l with
  | nil => simp
  | cons a t ih =>
    simp only [List.foldr_cons, Nat.max_eq_zero_iff, List.mem_cons]
    constructor
    · rintro ⟨ha, ht⟩ x hx
      rcases hx with h1 | h1
      · rw [h1]; exact ha
      · exact ih.1 ht x h1
    · intro hall
      exact ⟨hall a (Or.inl rfl), ih.2 fun x hx => hall x (Or.inr hx)⟩

theorem le_foldr_max (l : List Nat) : ∀ x ∈ l, x ≤ l.foldr max 0 := by
  induction l with
  | nil => intro x hx; simp at hx
  | cons a t ih =>
    intro x hx
    simp only [List.foldr_cons]
    rcases List.mem_cons.1 hx with h1 | h1
    · rw [h1]; exact Nat.le_max_left _ _
    · exact le_trans (ih x h1) (Nat.le_max_right _ _)

/-- C10: the cell coloring of the frontend ConfusionMatrix component is
well-defined exactly when some cell of the matrix is positive: the
maximum cell value is 0 precisely when every cell is 0; with a zero
maximum the color of every cell is undefined (the JS code divides by the
zero maximum without a guard); and with a positive maximum every cell of
the matrix gets a color whose r and g components coincide and lie in
[0, 255], with b fixed at 255. -/
theorem getColor_welldefined (matrix : List (List Nat)) :
    (maxFlat matrix = 0 ↔ ∀ row ∈ matrix, ∀ v ∈ row, v = 0) ∧
    (∀ v : Nat, maxFlat matrix = 0 → getColor (maxFlat matrix) v = none) ∧
    (∀ row ∈ matrix, ∀ v ∈ row, 0 < maxFlat matrix →
      ∃ r : ℤ, getColor (maxFlat matrix) v = some (r, r, 255) ∧
        0 ≤ r ∧ r ≤ 255) := by
  refine ⟨?_, ?_, ?_⟩
  · unfold maxFlat
    rw [foldr_max_eq_zero_iff]
    constructor
    · intro h row hrow v hv
      exact h v (List.mem_flatten.2 ⟨row, hrow, hv⟩)
    · intro h v hv
      obtain ⟨row, hrow, hvr⟩ := List.mem_flatten.1 hv
      exact h row hrow v hvr
  · intro v h
    unfold getColor
    rw [if_pos h]
  · intro row hrow v hv hpos
    have hle : v ≤ maxFlat matrix :=
      le_foldr_max _ v (List.mem_flatten.2 ⟨row, hrow, hv⟩)
    have hmq : (0 : ℚ) < (maxFlat matrix : ℚ) := by exact_mod_cast hpos
    have hi0 : (0 : ℚ) ≤ (v : ℚ) / (maxFlat matrix : ℚ) :=
      div_nonneg (by positivity) (le_of_lt hmq)
    have hi1 : (v : ℚ) / (maxFlat matrix : ℚ) ≤ 1 := by
      rw [div_le_one hmq]
      exact_mod_cast hle
    refine ⟨jsRound (255 * (1 - (v : ℚ) / (maxFlat matrix : ℚ))), ?_, ?_, ?_⟩
    · unfold getColor
      rw [if_neg (Nat.pos_iff_ne_zero.1 hpos)]
    · unfold jsRound
      rw [Int.le_floor]
      push_cast
      nlinarith [hi0, hi1]
    · unfold jsRound
      have : (⌊255 * (1 - (v : ℚ) / (maxFlat matrix : ℚ)) + 1 / 2⌋ : ℤ)
          < 256 := by
        rw [Int.floor_lt]
        push_cast
        nlinarith [hi0, hi1]
      omega

/-- Witness for C10: in a matrix with maximum cell 2, cell value 0 gets
a defined color. -/
theorem getColor_welldefined_witness :
    getColor (maxFlat [[0, 2], [1, 0]]) 0 ≠ none := by
  obtain ⟨r, hc, _, _⟩ := (getColor_welldefined [[0, 2], [1, 0]]).2.2
    [0, 2] (by simp) 0 (by simp) (by decide)
  rw [hc]
  simp
